import Mathlib

/-!
Verification of the `multi-map` crate (`src/lib.rs`).

`MultiMap<K1, K2, V>` holds two hash tables: `value_map : K1 -> (K2, V)`
(the primary table, owning the values) and `key_map : K2 -> K1` (the
secondary reverse index).  We embed each `std::collections::HashMap` as an
association list whose keys are pairwise distinct (the well-formedness
predicate `HMWF`): `hmGet` reads the first matching entry, `hmInsert`
replaces the entry in place or appends, and `hmRemove` deletes the first
matching entry, matching the observable behaviour of `HashMap::get`,
`HashMap::insert` and `HashMap::remove` on a well-formed table.
-/

namespace MultiMapSpec

/-- Model of `HashMap::get`: value stored under `k`, if any. -/
def hmGet {K A : Type} [DecidableEq K] : List (K × A) → K → Option A
  | [], _ => none
  | (k', a) :: rest, k => if k' = k then some a else hmGet rest k

/-- Model of `HashMap::insert`: replace the entry for `k` in place, or append. -/
def hmInsert {K A : Type} [DecidableEq K] : List (K × A) → K → A → List (K × A)
  | [], k, a => [(k, a)]
  | (k', a') :: rest, k, a =>
      if k' = k then (k, a) :: rest else (k', a') :: hmInsert rest k a

/-- Model of `HashMap::remove`'s effect on the table: delete the entry for `k`. -/
def hmRemove {K A : Type} [DecidableEq K] : List (K × A) → K → List (K × A)
  | [], _ => []
  | (k', a') :: rest, k => if k' = k then rest else (k', a') :: hmRemove rest k

/-- Keys of a table. -/
def hmKeys {K A : Type} (m : List (K × A)) : List K :=
  m.map Prod.fst

/-- Well-formedness of a `HashMap` model: keys are pairwise distinct. -/
def HMWF {K A : Type} (m : List (K × A)) : Prop :=
  (hmKeys m).Nodup

instance {K A : Type} [DecidableEq K] (m : List (K × A)) : Decidable (HMWF m) :=
  List.nodupDecidable (hmKeys m)

/-- Model of `HashMap`'s `PartialEq`: equal lengths and every entry of the
first is found, with an equal value, in the second. -/
def hmEq {K A : Type} [DecidableEq K] [DecidableEq A] (a b : List (K × A)) : Bool :=
  decide (a.length = b.length) && a.all fun p => decide (hmGet b p.1 = some p.2)

/-- The `MultiMap` struct of `lib.rs`: a primary table `value_map : K1 -> (K2, V)`
and a derived secondary table `key_map : K2 -> K1`. -/
structure MultiMap (K1 K2 V : Type) where
  value_map : List (K1 × (K2 × V))
  key_map : List (K2 × K1)

variable {K1 K2 V : Type} [DecidableEq K1] [DecidableEq K2]

namespace MultiMap

/-- `MultiMap::new`: both tables empty. -/
def new : MultiMap K1 K2 V :=
  ⟨[], []⟩

/-- `MultiMap::with_capacity`: capacity is not observable in the model, so the
result is the empty map. -/
def with_capacity (_capacity : Nat) : MultiMap K1 K2 V :=
  ⟨[], []⟩

/-- `MultiMap::insert`: `key_map.insert(k2, k1); value_map.insert(k1, (k2, v))`. -/
def insert (m : MultiMap K1 K2 V) (key_one : K1) (key_two : K2) (value : V) :
    MultiMap K1 K2 V :=
  { value_map := hmInsert m.value_map key_one (key_two, value)
    key_map := hmInsert m.key_map key_two key_one }

/-- `MultiMap::get`: look `key` up in the primary table and project the value. -/
def get (m : MultiMap K1 K2 V) (key : K1) : Option V :=
  match hmGet m.value_map key with
  | some pair => some pair.2
  | none => none

/-- `MultiMap::get_mut`: the value a mutable borrow would expose; the same
lookup as `get`. -/
def get_mut (m : MultiMap K1 K2 V) (key : K1) : Option V :=
  match hmGet m.value_map key with
  | some pair => some pair.2
  | none => none

/-- `MultiMap::get_alt`: chase `key` through the secondary table, then look the
recovered `k1` up in the primary table. -/
def get_alt (m : MultiMap K1 K2 V) (key : K2) : Option V :=
  match hmGet m.key_map key with
  | some key_a =>
      match hmGet m.value_map key_a with
      | some pair => some pair.2
      | none => none
  | none => none

/-- `MultiMap::get_mut_alt`: the value a mutable borrow would expose; the same
two-lookup chain as `get_alt`. -/
def get_mut_alt (m : MultiMap K1 K2 V) (key : K2) : Option V :=
  match hmGet m.key_map key with
  | some key_a =>
      match hmGet m.value_map key_a with
      | some pair => some pair.2
      | none => none
  | none => none

/-- `MultiMap::remove`: remove `key` from the primary table; when a pair
`(k2, v)` was stored there, also remove `k2` from the secondary table and
return `v`.  Result: the returned option and the new map. -/
def remove (m : MultiMap K1 K2 V) (key : K1) : Option V × MultiMap K1 K2 V :=
  match hmGet m.value_map key with
  | some pair =>
      (some pair.2,
        { value_map := hmRemove m.value_map key
          key_map := hmRemove m.key_map pair.1 })
  | none => (none, m)

/-- `MultiMap::contains_key`: presence in the primary table. -/
def contains_key (m : MultiMap K1 K2 V) (key : K1) : Bool :=
  (hmGet m.value_map key).isSome

/-- `MultiMap::contains_key_alt`: presence in the secondary table. -/
def contains_key_alt (m : MultiMap K1 K2 V) (key : K2) : Bool :=
  (hmGet m.key_map key).isSome

/-- `MultiMap::remove_alt`: remove `key` from the secondary table; when that
yields a `k1`, remove `k1` from the primary table and return the value found
there, if any.  The secondary entry is removed even when the primary lookup
then fails. -/
def remove_alt (m : MultiMap K1 K2 V) (key : K2) : Option V × MultiMap K1 K2 V :=
  match hmGet m.key_map key with
  | some key_a =>
      match hmGet m.value_map key_a with
      | some pair =>
          (some pair.2,
            { value_map := hmRemove m.value_map key_a
              key_map := hmRemove m.key_map key })
      | none => (none, { value_map := m.value_map, key_map := hmRemove m.key_map key })
  | none => (none, m)

/-- `impl PartialEq for MultiMap`: compares only the primary tables. -/
def beq [DecidableEq K2] [DecidableEq V] [DecidableEq K1]
    (a b : MultiMap K1 K2 V) : Bool :=
  hmEq a.value_map b.value_map

/-- Well-formedness of a `MultiMap`: both backing tables have distinct keys,
as real `HashMap`s do. -/
def WF (m : MultiMap K1 K2 V) : Prop :=
  HMWF m.value_map ∧ HMWF m.key_map

/-- `impl From<HashMap<K1, (K2, V)>> for MultiMap`: start from
`with_capacity(len)` and insert every entry of the flat table through the
normal insertion path. -/
def from_tuple_map (tuple_map : List (K1 × K2 × V)) : MultiMap K1 K2 V :=
  tuple_map.foldl (fun m p => m.insert p.1 p.2.1 p.2.2)
    (MultiMap.with_capacity tuple_map.length)

end MultiMap

/-- Replay a list of `insert(k1, k2, v)` calls on a map. -/
def applyInserts (m : MultiMap K1 K2 V) (l : List (K1 × K2 × V)) : MultiMap K1 K2 V :=
  l.foldl (fun m p => m.insert p.1 p.2.1 p.2.2) m

/-- States reachable from `MultiMap::new` by the public mutating operations. -/
inductive Reachable : MultiMap K1 K2 V → Prop
  | new : Reachable MultiMap.new
  | with_capacity (n : Nat) : Reachable (MultiMap.with_capacity n)
  | insert (k1 : K1) (k2 : K2) (v : V) {m : MultiMap K1 K2 V} :
      Reachable m → Reachable (m.insert k1 k2 v)
  | remove (k1 : K1) {m : MultiMap K1 K2 V} :
      Reachable m → Reachable (m.remove k1).2
  | remove_alt (k2 : K2) {m : MultiMap K1 K2 V} :
      Reachable m → Reachable (m.remove_alt k2).2

/-- The spec's table-consistency invariant: every primary entry
`k1 -> (k2, v)` has the secondary entry `k2 -> k1`, and every secondary entry
`k2 -> k1` has a primary entry `k1 -> (k2, v)`. -/
def Inv (m : MultiMap K1 K2 V) : Prop :=
  (∀ k1 p, hmGet m.value_map k1 = some p → hmGet m.key_map p.1 = some k1) ∧
  (∀ k2 k1, hmGet m.key_map k2 = some k1 → ∃ v, hmGet m.value_map k1 = some (k2, v))

/-- The borrowing iterator `Iter` of `lib.rs`: a cursor over the primary
table's entries. -/
structure Iter (K1 K2 V : Type) where
  base : List (K1 × (K2 × V))

/-- `MultiMap::iter`: an iterator over the primary table. -/
def MultiMap.iter (m : MultiMap K1 K2 V) : Iter K1 K2 V :=
  ⟨m.value_map⟩

/-- `Iterator::next` for `Iter`: yield the next entry and the advanced cursor. -/
def Iter.next : Iter K1 K2 V → Option ((K1 × (K2 × V)) × Iter K1 K2 V)
  | ⟨[]⟩ => none
  | ⟨x :: rest⟩ => some (x, ⟨rest⟩)

/-- A full pass of an iterator: every item yielded by repeated `next` calls
until exhaustion. -/
def Iter.run : Iter K1 K2 V → List (K1 × (K2 × V))
  | ⟨[]⟩ => []
  | ⟨x :: rest⟩ => x :: Iter.run ⟨rest⟩

/-- Concrete state obtained by `insert(1, 10, 0)` then `insert(1, 20, 0)` on an
empty map: the primary entry for `1` is replaced, but the stale secondary entry
`10 -> 1` is never cleaned up. -/
def mBad : MultiMap Nat Nat Nat :=
  (MultiMap.new.insert 1 10 0).insert 1 20 0

/-- Concrete state whose secondary table holds an orphaned entry `5 -> 1`
while the primary table is empty. -/
def mOrphan : MultiMap Nat Nat Nat :=
  ⟨[], [(5, 1)]⟩

/-- Concrete one-element map `insert(1, 10, 5)` on an empty map. -/
def mOne : MultiMap Nat Nat Nat :=
  MultiMap.new.insert 1 10 5

/-- Concrete pair of maps with equal primary tables but different secondary
tables. -/
def mEqA : MultiMap Nat Nat Nat :=
  ⟨[(1, (10, 5))], [(10, 1)]⟩

/-- Like `mEqA` but with a divergent secondary table. -/
def mEqB : MultiMap Nat Nat Nat :=
  ⟨[(1, (10, 5))], [(99, 1)]⟩

/-- Concrete flat input table whose two entries share the secondary key `5`. -/
def tmShared : List (Nat × Nat × Nat) :=
  [(1, (5, 10)), (2, (5, 20))]

/-- Concrete flat input table with pairwise-distinct primary and secondary
keys. -/
def tmGood : List (Nat × Nat × Nat) :=
  [(1, (10, 100)), (2, (20, 200))]

section HashMapLemmas

variable {K A : Type} [DecidableEq K]

theorem hmKeys_nil : hmKeys ([] : List (K × A)) = [] :=
  rfl

theorem hmKeys_cons (hd : K × A) (tl : List (K × A)) :
    hmKeys (hd :: tl) = hd.1 :: hmKeys tl :=
  rfl

theorem hmGet_hmInsert (m : List (K × A)) (k j : K) (a : A) :
    hmGet (hmInsert m k a) j = if k = j then some a else hmGet m j := by
  induction m with
  | nil => simp [hmInsert, hmGet]
  | cons hd tl ih =>
      obtain ⟨k', a'⟩ := hd
      by_cases hk : k' = k
      · subst hk
        by_cases hj : k' = j <;> simp [hmInsert, hmGet, hj]
      · by_cases hj : k' = j
        · subst hj
          have hkj : ¬k = k' := fun h => hk h.symm
          simp [hmInsert, hmGet, hk, hkj]
        · simp [hmInsert, hmGet, hk, hj, ih]

theorem hmGet_hmInsert_self (m : List (K × A)) (k : K) (a : A) :
    hmGet (hmInsert m k a) k = some a := by
  simp [hmGet_hmInsert]

theorem hmGet_hmInsert_ne (m : List (K × A)) {k j : K} (a : A) (h : j ≠ k) :
    hmGet (hmInsert m k a) j = hmGet m j := by
  rw [hmGet_hmInsert, if_neg (fun hh => h hh.symm)]

theorem hmGet_hmRemove_ne (m : List (K × A)) {k j : K} (h : j ≠ k) :
    hmGet (hmRemove m k) j = hmGet m j := by
  induction m with
  | nil => simp [hmRemove]
  | cons hd tl ih =>
      obtain ⟨k', a'⟩ := hd
      by_cases hk : k' = k
      · subst hk
        have hkj : ¬k' = j := fun hh => h hh.symm
        simp [hmRemove, hmGet, hkj]
      · by_cases hj : k' = j
        · subst hj
          simp [hmRemove, hmGet, hk]
        · simp [hmRemove, hmGet, hk, hj, ih]

theorem mem_hmKeys {m : List (K × A)} {k : K} :
    k ∈ hmKeys m ↔ ∃ a, (k, a) ∈ m := by
  constructor
  · intro h
    rcases List.mem_map.mp h with ⟨p, hp, he⟩
    exact ⟨p.2, by simpa [← he] using hp⟩
  · rintro ⟨a, ha⟩
    exact List.mem_map.mpr ⟨(k, a), ha, rfl⟩

theorem hmGet_eq_none_of_not_mem {m : List (K × A)} {k : K}
    (h : k ∉ hmKeys m) : hmGet m k = none := by
  induction m with
  | nil => rfl
  | cons hd tl ih =>
      obtain ⟨k', a'⟩ := hd
      rw [hmKeys_cons, List.mem_cons] at h
      push_neg at h
      have hk : ¬k' = k := fun hh => h.1 hh.symm
      simp [hmGet, hk, ih h.2]

theorem hmGet_hmRemove_self {m : List (K × A)} (hwf : HMWF m) (k : K) :
    hmGet (hmRemove m k) k = none := by
  induction m with
  | nil => rfl
  | cons hd tl ih =>
      obtain ⟨k', a'⟩ := hd
      rw [HMWF, hmKeys_cons, List.nodup_cons] at hwf
      by_cases hk : k' = k
      · subst hk
        have hrw : hmRemove ((k', a') :: tl) k' = tl := by simp [hmRemove]
        rw [hrw]
        exact hmGet_eq_none_of_not_mem hwf.1
      · simp [hmRemove, hmGet, hk, ih hwf.2]

theorem mem_hmKeys_hmInsert {m : List (K × A)} {k j : K} {a : A} :
    j ∈ hmKeys (hmInsert m k a) ↔ j = k ∨ j ∈ hmKeys m := by
  induction m with
  | nil => simp [hmInsert, hmKeys]
  | cons hd tl ih =>
      obtain ⟨k', a'⟩ := hd
      by_cases hk : k' = k
      · subst hk
        simp [hmInsert, hmKeys_cons]
      · simp [hmInsert, hk, hmKeys_cons, ih]
        tauto

theorem HMWF_hmInsert {m : List (K × A)} (hwf : HMWF m) (k : K) (a : A) :
    HMWF (hmInsert m k a) := by
  induction m with
  | nil => simp [hmInsert, HMWF, hmKeys]
  | cons hd tl ih =>
      obtain ⟨k', a'⟩ := hd
      rw [HMWF, hmKeys_cons, List.nodup_cons] at hwf
      by_cases hk : k' = k
      · subst hk
        have hrw : hmInsert ((k', a') :: tl) k' a = (k', a) :: tl := by simp [hmInsert]
        rw [HMWF, hrw, hmKeys_cons, List.nodup_cons]
        exact hwf
      · have hrw : hmInsert ((k', a') :: tl) k a = (k', a') :: hmInsert tl k a := by
          simp [hmInsert, hk]
        rw [HMWF, hrw, hmKeys_cons, List.nodup_cons]
        refine ⟨?_, ih hwf.2⟩
        intro hmem
        rcases mem_hmKeys_hmInsert.mp hmem with he | hm
        · exact hk he
        · exact hwf.1 hm

theorem mem_hmKeys_hmRemove {m : List (K × A)} {k j : K} :
    j ∈ hmKeys (hmRemove m k) → j ∈ hmKeys m := by
  induction m with
  | nil => simp [hmRemove]
  | cons hd tl ih =>
      obtain ⟨k', a'⟩ := hd
      by_cases hk : k' = k
      · subst hk
        intro h
        simp only [hmRemove, if_pos rfl] at h
        rw [hmKeys_cons, List.mem_cons]
        exact Or.inr h
      · intro h
        simp only [hmRemove, if_neg hk, hmKeys_cons, List.mem_cons] at h ⊢
        tauto

theorem HMWF_hmRemove {m : List (K × A)} (hwf : HMWF m) (k : K) :
    HMWF (hmRemove m k) := by
  induction m with
  | nil => simpa [hmRemove] using hwf
  | cons hd tl ih =>
      obtain ⟨k', a'⟩ := hd
      rw [HMWF, hmKeys_cons, List.nodup_cons] at hwf
      by_cases hk : k' = k
      · subst hk
        simpa [hmRemove, HMWF] using hwf.2
      · rw [HMWF]
        simp only [hmRemove, if_neg hk, hmKeys_cons, List.nodup_cons]
        exact ⟨fun hmem => hwf.1 (mem_hmKeys_hmRemove hmem), ih hwf.2⟩

theorem hmGet_eq_some_of_mem {m : List (K × A)} {k : K} {a : A}
    (hwf : HMWF m) (h : (k, a) ∈ m) : hmGet m k = some a := by
  induction m with
  | nil => cases h
  | cons hd tl ih =>
      obtain ⟨k', a'⟩ := hd
      rw [HMWF, hmKeys_cons, List.nodup_cons] at hwf
      rcases List.mem_cons.mp h with he | hm
      · have h1 : k = k' := congrArg Prod.fst he
        have h2 : a = a' := congrArg Prod.snd he
        subst h1
        subst h2
        simp [hmGet]
      · have hk : k' ≠ k := fun he' => hwf.1 (he' ▸ mem_hmKeys.mpr ⟨a, hm⟩)
        simp [hmGet, hk, ih hwf.2 hm]

theorem mem_of_hmGet_eq_some {m : List (K × A)} {k : K} {a : A}
    (h : hmGet m k = some a) : (k, a) ∈ m := by
  induction m with
  | nil => simp [hmGet] at h
  | cons hd tl ih =>
      obtain ⟨k', a'⟩ := hd
      by_cases hk : k' = k
      · subst hk
        simp only [hmGet, if_pos rfl] at h
        have ha : a' = a := by simpa using h
        subst ha
        exact List.mem_cons_self _ _
      · simp only [hmGet, if_neg hk] at h
        exact List.mem_cons.mpr (Or.inr (ih h))

theorem hmGet_eq_some_iff_mem {m : List (K × A)} {k : K} {a : A}
    (hwf : HMWF m) : hmGet m k = some a ↔ (k, a) ∈ m :=
  ⟨mem_of_hmGet_eq_some, hmGet_eq_some_of_mem hwf⟩

end HashMapLemmas

theorem applyInserts_cons (m : MultiMap K1 K2 V) (t : K1 × K2 × V)
    (l : List (K1 × K2 × V)) :
    applyInserts m (t :: l) = applyInserts (m.insert t.1 t.2.1 t.2.2) l :=
  rfl

theorem applyInserts_append (m : MultiMap K1 K2 V) (l1 l2 : List (K1 × K2 × V)) :
    applyInserts m (l1 ++ l2) = applyInserts (applyInserts m l1) l2 := by
  simp [applyInserts, List.foldl_append]

theorem applyInserts_preserves_binding (k1 : K1) (k2 : K2) (v : V)
    (post : List (K1 × K2 × V)) :
    ∀ m : MultiMap K1 K2 V,
      hmGet m.value_map k1 = some (k2, v) →
      hmGet m.key_map k2 = some k1 →
      (∀ t ∈ post, t.1 ≠ k1) →
      (∀ t ∈ post, t.2.1 ≠ k2) →
      hmGet (applyInserts m post).value_map k1 = some (k2, v) ∧
      hmGet (applyInserts m post).key_map k2 = some k1 := by
  induction post with
  | nil => exact fun m hv hk _ _ => ⟨hv, hk⟩
  | cons t rest ih =>
      intro m hv hk h1 h2
      have ht1 : t.1 ≠ k1 := h1 t (List.mem_cons_self _ _)
      have ht2 : t.2.1 ≠ k2 := h2 t (List.mem_cons_self _ _)
      have hv' : hmGet (m.insert t.1 t.2.1 t.2.2).value_map k1 = some (k2, v) := by
        show hmGet (hmInsert m.value_map t.1 (t.2.1, t.2.2)) k1 = some (k2, v)
        rw [hmGet_hmInsert_ne _ _ (Ne.symm ht1), hv]
      have hk' : hmGet (m.insert t.1 t.2.1 t.2.2).key_map k2 = some k1 := by
        show hmGet (hmInsert m.key_map t.2.1 t.1) k2 = some k1
        rw [hmGet_hmInsert_ne _ _ (Ne.symm ht2), hk]
      rw [applyInserts_cons]
      exact ih (m.insert t.1 t.2.1 t.2.2) hv' hk'
        (fun s hs => h1 s (List.mem_cons_of_mem _ hs))
        (fun s hs => h2 s (List.mem_cons_of_mem _ hs))

theorem get_and_get_alt_after_inserts (pre post : List (K1 × K2 × V))
    (k1 : K1) (k2 : K2) (v : V)
    (h1 : ∀ t ∈ post, t.1 ≠ k1) (h2 : ∀ t ∈ post, t.2.1 ≠ k2) :
    (applyInserts MultiMap.new (pre ++ (k1, k2, v) :: post)).get k1 = some v ∧
    (applyInserts MultiMap.new (pre ++ (k1, k2, v) :: post)).get_alt k2 = some v := by
  rw [applyInserts_append, applyInserts_cons]
  have hv0 : hmGet ((applyInserts MultiMap.new pre).insert k1 k2 v).value_map k1
      = some (k2, v) := hmGet_hmInsert_self _ _ _
  have hk0 : hmGet ((applyInserts MultiMap.new pre).insert k1 k2 v).key_map k2
      = some k1 := hmGet_hmInsert_self _ _ _
  have hb := applyInserts_preserves_binding k1 k2 v post
    ((applyInserts MultiMap.new pre).insert k1 k2 v) hv0 hk0 h1 h2
  exact ⟨by simp [MultiMap.get, hb.1], by simp [MultiMap.get_alt, hb.2, hb.1]⟩

theorem column_fresh {γ δ : Type} (f : γ → δ) (pre post : List γ) (p : γ)
    (h : ((pre ++ p :: post).map f).Nodup) : ∀ t ∈ post, f t ≠ f p := by
  intro t ht he
  rw [List.map_append, List.map_cons] at h
  obtain ⟨-, h2, -⟩ := List.nodup_append.mp h
  exact (List.nodup_cons.mp h2).1 (he ▸ List.mem_map_of_mem f ht)

/-- C1: the claimed invariant — after every public operation the two tables
describe the same set of `(k1, k2)` pairs — fails on the code: the reachable
state `mBad` (empty map, then `insert(1, 10, 0)`, then `insert(1, 20, 0)`)
keeps the stale secondary entry `10 -> 1` although the primary table binds `1`
to the key pair `(20, 0)` only. -/
theorem invariant_broken_by_replacing_insert :
    Reachable mBad ∧
    mBad.value_map = [(1, (20, 0))] ∧
    mBad.key_map = [(10, 1), (20, 1)] ∧
    ¬Inv mBad := by
  refine ⟨?_, by decide, by decide, ?_⟩
  · show Reachable ((MultiMap.new.insert 1 10 0).insert 1 20 0)
    exact Reachable.insert 1 20 0 (Reachable.insert 1 10 0 Reachable.new)
  · intro hinv
    obtain ⟨v, hv⟩ := hinv.2 10 1 (by decide)
    have h20 : hmGet mBad.value_map 1 = some (20, 0) := by decide
    rw [h20] at hv
    have hp : (20, 0) = ((10 : Nat), v) := Option.some.inj hv
    have hp2 : (20 : Nat) = 10 := congrArg Prod.fst hp
    exact absurd hp2 (by decide)

/-- C3: for a well-formed map holding the element `(k1, k2, v)` in both
tables, `remove(k1)` returns `Some v` and afterwards `get(k1)` and
`get_alt(k2)` return `None`; symmetrically, `remove_alt(k2)` returns `Some v`
and afterwards both lookups return `None`. -/
theorem removal_symmetry (m : MultiMap K1 K2 V) (k1 : K1) (k2 : K2) (v : V)
    (hwf : m.WF)
    (hv : hmGet m.value_map k1 = some (k2, v))
    (hk : hmGet m.key_map k2 = some k1) :
    (m.remove k1).1 = some v ∧
    (m.remove k1).2.get k1 = none ∧
    (m.remove k1).2.get_alt k2 = none ∧
    (m.remove_alt k2).1 = some v ∧
    (m.remove_alt k2).2.get k1 = none ∧
    (m.remove_alt k2).2.get_alt k2 = none := by
  obtain ⟨hwfv, hwfk⟩ := hwf
  have hr : m.remove k1 =
      (some v, ⟨hmRemove m.value_map k1, hmRemove m.key_map k2⟩) := by
    simp [MultiMap.remove, hv]
  have hra : m.remove_alt k2 =
      (some v, ⟨hmRemove m.value_map k1, hmRemove m.key_map k2⟩) := by
    simp [MultiMap.remove_alt, hk, hv]
  have hg : hmGet (hmRemove m.value_map k1) k1 = none := hmGet_hmRemove_self hwfv k1
  have hgk : hmGet (hmRemove m.key_map k2) k2 = none := hmGet_hmRemove_self hwfk k2
  rw [hr, hra]
  exact ⟨rfl, by simp [MultiMap.get, hg], by simp [MultiMap.get_alt, hgk],
    rfl, by simp [MultiMap.get, hg], by simp [MultiMap.get_alt, hgk]⟩

/-- Witness for C3: the concrete one-element map `insert(1, 10, 5)`. -/
theorem removal_symmetry_witness :
    (mOne.remove 1).1 = some 5 ∧
    (mOne.remove 1).2.get 1 = none ∧
    (mOne.remove 1).2.get_alt 10 = none ∧
    (mOne.remove_alt 10).1 = some 5 ∧
    (mOne.remove_alt 10).2.get 1 = none ∧
    (mOne.remove_alt 10).2.get_alt 10 = none :=
  removal_symmetry mOne 1 10 5 ⟨by decide, by decide⟩ (by decide) (by decide)

/-- C6: `get_alt` and `get_mut_alt` return `None` both when `k2` is absent
from the secondary table and, defensively, when `k2` resolves to a `k1` that
is absent from the primary table; neither case is a fatal error. -/
theorem get_alt_graceful_absence (m : MultiMap K1 K2 V) (k2 : K2) :
    (hmGet m.key_map k2 = none →
      m.get_alt k2 = none ∧ m.get_mut_alt k2 = none) ∧
    (∀ k1, hmGet m.key_map k2 = some k1 → hmGet m.value_map k1 = none →
      m.get_alt k2 = none ∧ m.get_mut_alt k2 = none) := by
  constructor
  · intro h
    exact ⟨by simp [MultiMap.get_alt, h], by simp [MultiMap.get_mut_alt, h]⟩
  · intro k1 hk hv
    exact ⟨by simp [MultiMap.get_alt, hk, hv], by simp [MultiMap.get_mut_alt, hk, hv]⟩

/-- Witness for C6: on `mOrphan` the key `7` is absent from the secondary
table, and the key `5` is present but resolves to a `k1` absent from the
primary table; all four lookups return `None`. -/
theorem get_alt_graceful_absence_witness :
    (mOrphan.get_alt 7 = none ∧ mOrphan.get_mut_alt 7 = none) ∧
    (mOrphan.get_alt 5 = none ∧ mOrphan.get_mut_alt 5 = none) :=
  ⟨(get_alt_graceful_absence mOrphan 7).1 (by decide),
   (get_alt_graceful_absence mOrphan 5).2 1 (by decide) (by decide)⟩

/-- C7: for a primary key absent from the primary table and a secondary key
absent from the secondary table, all six operations report absence and the
removal operations return the map unchanged. -/
theorem idempotent_absence (m : MultiMap K1 K2 V) (k1 : K1) (k2 : K2)
    (h1 : hmGet m.value_map k1 = none) (h2 : hmGet m.key_map k2 = none) :
    m.get k1 = none ∧ m.contains_key k1 = false ∧ m.remove k1 = (none, m) ∧
    m.get_alt k2 = none ∧ m.contains_key_alt k2 = false ∧
    m.remove_alt k2 = (none, m) := by
  refine ⟨?_, ?_, ?_, ?_, ?_, ?_⟩ <;>
    simp [MultiMap.get, MultiMap.contains_key, MultiMap.remove, MultiMap.get_alt,
      MultiMap.contains_key_alt, MultiMap.remove_alt, h1, h2]

/-- Witness for C7: the keys `2` and `20` are absent from `mOne`. -/
theorem idempotent_absence_witness :
    mOne.get 2 = none ∧ mOne.contains_key 2 = false ∧
    mOne.remove 2 = (none, mOne) ∧
    mOne.get_alt 20 = none ∧ mOne.contains_key_alt 20 = false ∧
    mOne.remove_alt 20 = (none, mOne) :=
  idempotent_absence mOne 2 20 (by decide) (by decide)

/-- C9: when the secondary table maps `k2` to a `k1` absent from the primary
table, `remove_alt(k2)` returns `None` yet still deletes the `k2 -> k1`
entry, so the state changes although the result signals absence. -/
theorem remove_alt_on_orphaned_secondary (m : MultiMap K1 K2 V) (k1 : K1) (k2 : K2)
    (hwf : HMWF m.key_map)
    (hk : hmGet m.key_map k2 = some k1) (hv : hmGet m.value_map k1 = none) :
    (m.remove_alt k2).1 = none ∧
    (m.remove_alt k2).2.value_map = m.value_map ∧
    (m.remove_alt k2).2.key_map = hmRemove m.key_map k2 ∧
    (m.remove_alt k2).2.contains_key_alt k2 = false ∧
    m.contains_key_alt k2 = true := by
  have hra : m.remove_alt k2 = (none, ⟨m.value_map, hmRemove m.key_map k2⟩) := by
    simp [MultiMap.remove_alt, hk, hv]
  rw [hra]
  refine ⟨rfl, rfl, rfl, ?_, ?_⟩
  · simp [MultiMap.contains_key_alt, hmGet_hmRemove_self hwf k2]
  · simp [MultiMap.contains_key_alt, hk]

/-- Witness for C9: on `mOrphan`, `remove_alt(5)` returns `None` but deletes
the orphaned secondary entry `5 -> 1`. -/
theorem remove_alt_on_orphaned_secondary_witness :
    (mOrphan.remove_alt 5).1 = none ∧
    (mOrphan.remove_alt 5).2.value_map = mOrphan.value_map ∧
    (mOrphan.remove_alt 5).2.key_map = hmRemove mOrphan.key_map 5 ∧
    (mOrphan.remove_alt 5).2.contains_key_alt 5 = false ∧
    mOrphan.contains_key_alt 5 = true :=
  remove_alt_on_orphaned_secondary mOrphan 1 5 (by decide) (by decide) (by decide)

/-- C10: after `insert(k1, k2, v)` followed by `insert(k1, k2', v')` with
`k2' ≠ k2`, the stale secondary entry for `k2` persists: `contains_key_alt(k2)`
is `true` and `get_alt(k2)` returns the new value `v'`. -/
theorem stale_secondary_after_replacing_insert
    (m : MultiMap K1 K2 V) (k1 : K1) (k2 k2' : K2) (v v' : V) (hne : k2' ≠ k2) :
    ((m.insert k1 k2 v).insert k1 k2' v').contains_key_alt k2 = true ∧
    ((m.insert k1 k2 v).insert k1 k2' v').get_alt k2 = some v' := by
  have hkm : hmGet ((m.insert k1 k2 v).insert k1 k2' v').key_map k2 = some k1 := by
    show hmGet (hmInsert (hmInsert m.key_map k2 k1) k2' k1) k2 = some k1
    rw [hmGet_hmInsert_ne _ _ (Ne.symm hne), hmGet_hmInsert_self]
  have hvm : hmGet ((m.insert k1 k2 v).insert k1 k2' v').value_map k1
      = some (k2', v') := by
    show hmGet (hmInsert (hmInsert m.value_map k1 (k2, v)) k1 (k2', v')) k1
        = some (k2', v')
    rw [hmGet_hmInsert_self]
  exact ⟨by simp [MultiMap.contains_key_alt, hkm], by simp [MultiMap.get_alt, hkm, hvm]⟩

/-- Witness for C10: `insert(1, 10, 5)` then `insert(1, 20, 6)` on the empty
map leaves `10` bound in the secondary table and `get_alt(10)` yields `6`. -/
theorem stale_secondary_after_replacing_insert_witness :
    ((MultiMap.new.insert 1 10 5).insert 1 20 6).contains_key_alt (10 : Nat) = true ∧
    ((MultiMap.new.insert 1 10 5).insert 1 20 6).get_alt (10 : Nat) = some (6 : Nat) :=
  stale_secondary_after_replacing_insert MultiMap.new 1 10 20 5 6 (by decide)

theorem hmEq_true_iff {K A : Type} [DecidableEq K] [DecidableEq A]
    {a b : List (K × A)} (ha : HMWF a) (hb : HMWF b) :
    hmEq a b = true ↔ ∀ p, p ∈ a ↔ p ∈ b := by
  have hun : hmEq a b = true ↔
      a.length = b.length ∧ ∀ p ∈ a, hmGet b p.1 = some p.2 := by
    simp [hmEq, List.all_eq_true, Bool.and_eq_true, decide_eq_true_eq]
  rw [hun]
  constructor
  · rintro ⟨hlen, hall⟩ p
    constructor
    · intro hpa
      exact mem_of_hmGet_eq_some (hall p hpa)
    · intro hpb
      have hsub : (hmKeys a).toFinset ⊆ (hmKeys b).toFinset := by
        intro k hkF
        rw [List.mem_toFinset] at hkF ⊢
        obtain ⟨x, hx⟩ := mem_hmKeys.mp hkF
        exact mem_hmKeys.mpr ⟨_, mem_of_hmGet_eq_some (hall (k, x) hx)⟩
      have hlenk : (hmKeys a).length = (hmKeys b).length := by
        simp [hmKeys, hlen]
      have hFeq : (hmKeys a).toFinset = (hmKeys b).toFinset := by
        refine Finset.eq_of_subset_of_card_le hsub ?_
        rw [List.toFinset_card_of_nodup ha, List.toFinset_card_of_nodup hb, hlenk]
      have hk_a : p.1 ∈ hmKeys a := by
        have hk_b : p.1 ∈ hmKeys b := mem_hmKeys.mpr ⟨p.2, hpb⟩
        have := hFeq ▸ List.mem_toFinset.mpr hk_b
        exact List.mem_toFinset.mp this
      obtain ⟨x, hxa⟩ := mem_hmKeys.mp hk_a
      have hbx : hmGet b p.1 = some x := hall (p.1, x) hxa
      have hbp : hmGet b p.1 = some p.2 := hmGet_eq_some_of_mem hb hpb
      rw [hbx] at hbp
      have hxp : x = p.2 := Option.some.inj hbp
      rw [hxp] at hxa
      simpa using hxa
  · intro h
    have hperm : a.Perm b := by
      refine List.perm_of_nodup_nodup_toFinset_eq (List.Nodup.of_map _ ha)
        (List.Nodup.of_map _ hb) ?_
      ext p
      simp only [List.mem_toFinset]
      exact h p
    refine ⟨hperm.length_eq, ?_⟩
    intro p hpa
    exact hmGet_eq_some_of_mem hb ((h p).mp hpa)

theorem WF_new : (MultiMap.new : MultiMap K1 K2 V).WF :=
  ⟨List.nodup_nil, List.nodup_nil⟩

theorem WF_insert {m : MultiMap K1 K2 V} (hwf : m.WF) (k1 : K1) (k2 : K2) (v : V) :
    (m.insert k1 k2 v).WF :=
  ⟨HMWF_hmInsert hwf.1 _ _, HMWF_hmInsert hwf.2 _ _⟩

theorem WF_applyInserts (l : List (K1 × K2 × V)) :
    ∀ m : MultiMap K1 K2 V, m.WF → (applyInserts m l).WF := by
  induction l with
  | nil => exact fun m h => h
  | cons t rest ih =>
      intro m h
      rw [applyInserts_cons]
      exact ih _ (WF_insert h _ _ _)

theorem Iter_run_base (l : List (K1 × (K2 × V))) :
    Iter.run (⟨l⟩ : Iter K1 K2 V) = l := by
  induction l with
  | nil => simp [Iter.run]
  | cons x rest ih => simp [Iter.run, ih]

theorem Iter_run_eq_next (it : Iter K1 K2 V) :
    it.run = (match it.next with
      | none => []
      | some (x, it') => x :: it'.run) := by
  obtain ⟨l⟩ := it
  cases l <;> simp [Iter.run, Iter.next]

/-- C2: after any sequence of `insert` calls from the empty map, every
inserted triple `(k1, k2, v)` whose keys were not rebound by a later insert
satisfies `get(k1) = Some v` and `get_alt(k2) = Some v` — the two lookups
agree on the same value. -/
theorem dual_lookup_consistency (pre post : List (K1 × K2 × V))
    (k1 : K1) (k2 : K2) (v : V)
    (h1 : ∀ t ∈ post, t.1 ≠ k1) (h2 : ∀ t ∈ post, t.2.1 ≠ k2) :
    (applyInserts MultiMap.new (pre ++ (k1, k2, v) :: post)).get k1 = some v ∧
    (applyInserts MultiMap.new (pre ++ (k1, k2, v) :: post)).get_alt k2 = some v :=
  get_and_get_alt_after_inserts pre post k1 k2 v h1 h2

/-- Witness for C2: the middle triple `(1, 10, 5)` of a three-insert
sequence. -/
theorem dual_lookup_consistency_witness :
    (applyInserts MultiMap.new ([(7, 70, 1)] ++ (1, 10, 5) :: [(8, 80, 2)])).get 1
      = some 5 ∧
    (applyInserts MultiMap.new ([(7, 70, 1)] ++ (1, 10, 5) :: [(8, 80, 2)])).get_alt 10
      = some 5 :=
  dual_lookup_consistency [(7, 70, 1)] [(8, 80, 2)] 1 10 5 (by decide) (by decide)

/-- C5 counterexample: the flat table `tmShared` is a valid `HashMap` input
(distinct primary keys), contains the entry `(1, (5, 10))`, yet on the
constructed map `get_alt(5)` returns `Some 20`, not `Some 10` as the claim
requires for that entry. -/
theorem from_flat_lookup_counterexample :
    HMWF tmShared ∧ (1, (5, 10)) ∈ tmShared ∧
    (MultiMap.from_tuple_map tmShared).get 1 = some 10 ∧
    (MultiMap.from_tuple_map tmShared).get_alt 5 = some 20 ∧
    (MultiMap.from_tuple_map tmShared).get_alt 5 ≠ some 10 := by
  exact ⟨by decide, by decide, by decide, by decide, by decide⟩

/-- C5 (amended): when the input flat table additionally has pairwise-distinct
secondary keys, the `From` conversion equals replaying `insert` on an empty
map, and every input entry `(k1, (k2, v))` satisfies `get(k1) = Some v` and
`get_alt(k2) = Some v`. -/
theorem from_flat_construction (tm : List (K1 × K2 × V))
    (hk1 : (tm.map fun t => t.1).Nodup)
    (hk2 : (tm.map fun t => t.2.1).Nodup) :
    MultiMap.from_tuple_map tm = applyInserts MultiMap.new tm ∧
    ∀ p ∈ tm, (MultiMap.from_tuple_map tm).get p.1 = some p.2.2 ∧
      (MultiMap.from_tuple_map tm).get_alt p.2.1 = some p.2.2 := by
  have heq : MultiMap.from_tuple_map tm = applyInserts MultiMap.new tm := rfl
  refine ⟨heq, ?_⟩
  intro p hp
  rw [heq]
  obtain ⟨pre, post, hsplit⟩ := List.append_of_mem hp
  subst hsplit
  have h1 : ∀ t ∈ post, t.1 ≠ p.1 := column_fresh (fun t => t.1) pre post p hk1
  have h2 : ∀ t ∈ post, t.2.1 ≠ p.2.1 := column_fresh (fun t => t.2.1) pre post p hk2
  exact get_and_get_alt_after_inserts pre post p.1 p.2.1 p.2.2 h1 h2

/-- Witness for C5: the flat table `tmGood` with distinct keys; the entry
`(1, (10, 100))` is retrievable through both lookups. -/
theorem from_flat_construction_witness :
    MultiMap.from_tuple_map tmGood = applyInserts MultiMap.new tmGood ∧
    (MultiMap.from_tuple_map tmGood).get 1 = some 100 ∧
    (MultiMap.from_tuple_map tmGood).get_alt 10 = some 100 :=
  ⟨(from_flat_construction tmGood (by decide) (by decide)).1,
   ((from_flat_construction tmGood (by decide) (by decide)).2 (1, (10, 100))
     (by decide)).1,
   ((from_flat_construction tmGood (by decide) (by decide)).2 (1, (10, 100))
     (by decide)).2⟩

/-- C4: two well-formed maps compare equal exactly when their primary tables
hold the same set of `(k1, (k2, v))` pairs — the secondary tables play no
role — and, in particular, any two insertion sequences ending with the same
set of primary triples produce maps that compare equal. -/
theorem equality_ignores_derived_state [DecidableEq V] :
    (∀ a b : MultiMap K1 K2 V, a.WF → b.WF →
      (a.beq b = true ↔ ∀ p, p ∈ a.value_map ↔ p ∈ b.value_map)) ∧
    (∀ s1 s2 : List (K1 × K2 × V),
      (∀ p, p ∈ (applyInserts MultiMap.new s1).value_map ↔
            p ∈ (applyInserts MultiMap.new s2).value_map) →
      (applyInserts MultiMap.new s1).beq (applyInserts MultiMap.new s2) = true) := by
  have hmain : ∀ a b : MultiMap K1 K2 V, a.WF → b.WF →
      (a.beq b = true ↔ ∀ p, p ∈ a.value_map ↔ p ∈ b.value_map) := by
    intro a b ha hb
    exact hmEq_true_iff ha.1 hb.1
  refine ⟨hmain, ?_⟩
  intro s1 s2 hset
  exact (hmain _ _ (WF_applyInserts s1 _ WF_new) (WF_applyInserts s2 _ WF_new)).mpr hset

/-- Witness for C4: `mEqA` and `mEqB` share the primary table but have
different secondary tables, and the two-element insertion sequences in the
two orders compare equal. -/
theorem equality_ignores_derived_state_witness :
    (mEqA.beq mEqB = true ↔ ∀ p, p ∈ mEqA.value_map ↔ p ∈ mEqB.value_map) ∧
    (applyInserts MultiMap.new [(1, 10, 5), (2, 20, 6)]).beq
      (applyInserts MultiMap.new [(2, 20, 6), (1, 10, 5)]) = true :=
  ⟨equality_ignores_derived_state.1 mEqA mEqB ⟨by decide, by decide⟩
      ⟨by decide, by decide⟩,
   equality_ignores_derived_state.2 [(1, 10, 5), (2, 20, 6)] [(2, 20, 6), (1, 10, 5)]
     (by intro p
         simp [applyInserts, MultiMap.new, MultiMap.insert, hmInsert]
         tauto)⟩

/-- C8: a full pass of the borrowing iterator yields exactly the triples
stored in the primary table (membership coincides with `hmGet`), each exactly
once (the pass is duplicate-free), and a second fresh pass over the unmodified
map yields the same sequence. -/
theorem iteration_completeness (m : MultiMap K1 K2 V) (hwf : m.WF) :
    (∀ p, p ∈ (MultiMap.iter m).run ↔ hmGet m.value_map p.1 = some p.2) ∧
    ((MultiMap.iter m).run).Nodup ∧
    (MultiMap.iter m).run = (MultiMap.iter m).run := by
  have hrun : (MultiMap.iter m).run = m.value_map := Iter_run_base m.value_map
  refine ⟨?_, ?_, rfl⟩
  · intro p
    rw [hrun]
    exact (hmGet_eq_some_iff_mem hwf.1).symm
  · rw [hrun]
    exact List.Nodup.of_map _ hwf.1

/-- Witness for C8: the one-element map `mOne`. -/
theorem iteration_completeness_witness :
    ((1, (10, 5)) ∈ (MultiMap.iter mOne).run ↔
      hmGet mOne.value_map 1 = some (10, 5)) ∧
    ((MultiMap.iter mOne).run).Nodup ∧
    (MultiMap.iter mOne).run = (MultiMap.iter mOne).run :=
  ⟨(iteration_completeness mOne ⟨by decide, by decide⟩).1 (1, (10, 5)),
   (iteration_completeness mOne ⟨by decide, by decide⟩).2.1,
   (iteration_completeness mOne ⟨by decide, by decide⟩).2.2⟩

end MultiMapSpec
